import Mathlib

/-!
Verification development for the computational-geometry core of the
repository: the flood-fill affected-region finder `addpoint`, the
per-simplex circumcenter solver `voronoi_center` / `voronoi_centers`,
and the Voronoi cell-volume estimator `voronoi_volume`, all from
`scipy/spatial/qhullextra.py`.

The triangulation collaborator is modelled as plain data: coordinates are
exact rationals, index arrays are lists.  External library calls
(`np.linalg.solve`, `np.linalg.det`) are modelled as exact rational
linear algebra: the solver through the adjugate formula (which agrees
with the unique solution whenever the matrix is nonsingular), the
determinant through Laplace expansion.  Loops whose termination is not
structural are written with an explicit fuel parameter; running out of
fuel is reported as a distinct outcome, and termination is proved
separately as the existence of sufficient fuel.
-/

/-- The triangulation collaborator: `ndim`, the point coordinates
(`tri.points`), per-simplex vertex indices (`tri.vertices`), per-simplex
neighbor references (`tri.neighbors`, one entry opposite each vertex,
`-1` the hull-boundary sentinel), and the CSR vertex-to-incident-simplices
index (`tri.vertex_simplex = (ind, iptr)`). -/
structure Tri where
  ndim : ℕ
  points : List (List ℚ)
  vertices : List (List ℕ)
  neighbors : List (List ℤ)
  ind : List ℕ
  iptr : List ℕ
deriving DecidableEq

/-- Failure outcomes.  `outsideHull` models the `assert start != -1`
guard of `addpoint` (point-location reported "outside"); `fuelExhausted`
marks insufficient fuel for a loop and never occurs in a terminating run. -/
inductive QErr where
  | outsideHull
  | fuelExhausted
deriving DecidableEq

instance exceptDecEq {ε α : Type} [DecidableEq ε] [DecidableEq α] :
    DecidableEq (Except ε α)
  | .error e, .error e' =>
    if h : e = e' then .isTrue (by rw [h]) else .isFalse (fun hh => by cases hh; exact h rfl)
  | .error _, .ok _ => .isFalse (fun hh => by cases hh)
  | .ok _, .error _ => .isFalse (fun hh => by cases hh)
  | .ok a, .ok a' =>
    if h : a = a' then .isTrue (by rw [h]) else .isFalse (fun hh => by cases hh; exact h rfl)

/- ------------------------------------------------------------------ -/
/- `addpoint` (lines 41-70): breadth-first flood fill.                 -/
/- ------------------------------------------------------------------ -/

/-- The enqueue pass of one visible facet
(`for iridge, neighbor in enumerate(tri.neighbors[facet]): if neighbor
not in seen: horizon.append((neighbor, (facet, iridge)))`), starting at
ridge index `i` over the remaining neighbor entries. -/
def newItemsAux (facet : ℤ) (seen : Finset ℤ) : ℕ → List ℤ → List (ℤ × Option (ℤ × ℕ))
  | _, [] => []
  | i, nb :: rest =>
    if nb ∈ seen then newItemsAux facet seen (i + 1) rest
    else (nb, some (facet, i)) :: newItemsAux facet seen (i + 1) rest

/-- Items enqueued when the visible facet `facet` is expanded.  In every
run reachable from `addpoint`, `facet` is a valid nonnegative simplex
index, so `facet.toNat` matches Python's `tri.neighbors[facet]`. -/
def newItems (tri : Tri) (facet : ℤ) (seen : Finset ℤ) : List (ℤ × Option (ℤ × ℕ)) :=
  newItemsAux facet seen 0 (tri.neighbors.getD facet.toNat [])

/-- The `while horizon:` loop of `addpoint`, with explicit fuel.  State:
the FIFO work queue of `(facet, originating ridge)` pairs, the `seen`
dictionary (keys only), the accumulated `new_neighbors` and
`hull_ridges`.  Mirrors the source: `seen[facet] = True` happens at pop
time (before the branch), the sentinel `-1` and the negative-distance
case record the originating ridge if there is one (`if ridge:`), and the
nonnegative-distance case (inclusive: `dist >= 0`) appends the facet to
`new_neighbors` and enqueues every neighbor not yet in `seen`. -/
def addpointLoopF (tri : Tri) (dist : ℤ → ℚ) :
    ℕ → List (ℤ × Option (ℤ × ℕ)) → Finset ℤ → List ℤ → List (ℤ × ℕ) →
    Option (List ℤ × List (ℤ × ℕ))
  | _, [], _, nn, hr => some (nn, hr)
  | 0, _ :: _, _, _, _ => none
  | n + 1, (facet, ridge) :: rest, seen, nn, hr =>
    if facet = -1 then
      addpointLoopF tri dist n rest (insert facet seen) nn (hr ++ ridge.toList)
    else if 0 ≤ dist facet then
      addpointLoopF tri dist n (rest ++ newItems tri facet (insert facet seen))
        (insert facet seen) (nn ++ [facet]) hr
    else
      addpointLoopF tri dist n rest (insert facet seen) nn (hr ++ ridge.toList)

/-- Top-level `addpoint(tri, x)`.  The point `x` enters only through the
collaborator answers: `start = tri.find_simplex(x)` and the sidedness
array `dist = tri.plane_distance(x)`, which are passed in directly.
`assert start != -1` is modelled as the `outsideHull` failure. -/
def addpoint (fuel : ℕ) (tri : Tri) (start : ℤ) (dist : ℤ → ℚ) :
    Except QErr (List ℤ × List (ℤ × ℕ)) :=
  if start = -1 then .error .outsideHull
  else
    match addpointLoopF tri dist fuel [(start, none)] {start} [] [] with
    | some out => .ok out
    | none => .error .fuelExhausted

/-- Instrumented copy of `addpointLoopF` that returns the log of all ids
ever placed on the work queue (ghost state; the control flow is
identical). -/
def addpointLogF (tri : Tri) (dist : ℤ → ℚ) :
    ℕ → List (ℤ × Option (ℤ × ℕ)) → Finset ℤ → List ℤ → Option (List ℤ)
  | _, [], _, log => some log
  | 0, _ :: _, _, _ => none
  | n + 1, (facet, _) :: rest, seen, log =>
    if facet = -1 then
      addpointLogF tri dist n rest (insert facet seen) log
    else if 0 ≤ dist facet then
      addpointLogF tri dist n (rest ++ newItems tri facet (insert facet seen))
        (insert facet seen)
        (log ++ (newItems tri facet (insert facet seen)).map Prod.fst)
    else
      addpointLogF tri dist n rest (insert facet seen) log

/-- Enqueue log of a full `addpoint` run (the start simplex is the first
enqueued id). -/
def addpointLog (fuel : ℕ) (tri : Tri) (start : ℤ) (dist : ℤ → ℚ) : Option (List ℤ) :=
  if start = -1 then none
  else addpointLogF tri dist fuel [(start, none)] {start} [start]

/- ------------------------------------------------------------------ -/
/- Concrete triangulations used as test inputs.                        -/
/- ------------------------------------------------------------------ -/

/-- Unit square split into two triangles along the diagonal `{1,2}`:
simplex 0 stores vertices `[1,0,2]` (so its neighbor row is
`[-1, 1, -1]`), simplex 1 stores `[1,2,3]` (neighbor row `[-1,-1,0]`).
The four points are cocircular, so the lifted-paraboloid sidedness of
the square's center is exactly `0` for both simplices. -/
def sqTri : Tri :=
  { ndim := 2
    points := [[0, 0], [1, 0], [0, 1], [1, 1]]
    vertices := [[1, 0, 2], [1, 2, 3]]
    neighbors := [[-1, 1, -1], [-1, -1, 0]]
    ind := [0, 1, 3, 5, 6]
    iptr := [0, 0, 1, 0, 1, 1] }

/-- Sidedness answers for the center query point of `sqTri`: zero for
both simplices (cocircular configuration). -/
def sqDist : ℤ → ℚ := fun _ => 0

/-- Triangle `p0 p1 p2` with the interior point `p3`: three triangles
that are pairwise adjacent, each with one hull edge. -/
def fanTri : Tri :=
  { ndim := 2
    points := [[0, 0], [2, 0], [1, 2], [1, 3/4]]
    vertices := [[0, 1, 3], [1, 2, 3], [0, 2, 3]]
    neighbors := [[1, 2, -1], [2, 0, -1], [1, 0, -1]]
    ind := [0, 2, 4, 6, 9]
    iptr := [0, 2, 0, 1, 1, 2, 0, 1, 2] }

/-- Sidedness answers for a query point of `fanTri` visible from all
three simplices. -/
def fanDist : ℤ → ℚ := fun _ => 1

/-- A triangulated strip of four triangles over six points
(`T0 = {2,3,4}`, `T1 = {0,1,2}`, `T2 = {3,4,5}`, `T3 = {1,2,3}`); ids
are deliberately not in strip order, so a combination's positions inside
an incident-simplex list differ from the simplex ids at those
positions. -/
def stripTri : Tri :=
  { ndim := 2
    points := [[0, 0], [2, 0], [1, 1], [3, 1], [2, 5/2], [4, 2]]
    vertices := [[2, 3, 4], [0, 1, 2], [3, 4, 5], [1, 2, 3]]
    neighbors := [[2, -1, 3], [3, -1, -1], [-1, -1, 0], [0, -1, 1]]
    ind := [0, 1, 3, 6, 9, 11, 12]
    iptr := [1, 1, 3, 0, 1, 3, 0, 2, 3, 0, 2, 2] }

/-- One-dimensional triangulation: a single segment. -/
def segTri : Tri :=
  { ndim := 1
    points := [[0], [1]]
    vertices := [[0, 1]]
    neighbors := [[-1, -1]]
    ind := [0, 1, 2]
    iptr := [0, 0] }


/- ------------------------------------------------------------------ -/
/- `voronoi_center` (lines 100-133): circumcenter via a linear solve.  -/
/- ------------------------------------------------------------------ -/

/-- Coordinates of the `i`-th vertex of simplex `s`
(`tri.points[tri.vertices[isimplex]]`, one row). -/
def ptAt (tri : Tri) (s : ℕ) (i : Fin (tri.ndim + 1)) : Fin tri.ndim → ℚ :=
  fun j => (tri.points.getD ((tri.vertices.getD s []).getD i 0) []).getD j 0

/-- The translated vertex rows (`y -= y0`; numpy advanced indexing makes
`y` a fresh copy, so the subtraction touches only the copy). -/
def vcY (tri : Tri) (s : ℕ) (i : Fin (tri.ndim + 1)) (j : Fin tri.ndim) : ℚ :=
  ptAt tri s i j - ptAt tri s 0 j

/-- The system matrix: first column all ones (`lhs[:,0] = 1`), remaining
columns the translated coordinates (`lhs[:,1:] = y`). -/
def vcLhs (tri : Tri) (s : ℕ) : Matrix (Fin (tri.ndim + 1)) (Fin (tri.ndim + 1)) ℚ :=
  Matrix.of fun i j =>
    if h : (j : ℕ) = 0 then 1 else vcY tri s i ⟨(j : ℕ) - 1, by omega⟩

/-- The right-hand side (`rhs[:] = -(y*y).sum(axis=1)`). -/
def vcRhs (tri : Tri) (s : ℕ) (i : Fin (tri.ndim + 1)) : ℚ :=
  -(∑ j, vcY tri s i j ^ 2)

/-- Exact-rational model of `np.linalg.solve` through the adjugate
formula; for a nonsingular matrix this is the unique solution of
`A x = b`. -/
def solveLin {k : ℕ} (A : Matrix (Fin k) (Fin k) ℚ) (b : Fin k → ℚ) : Fin k → ℚ :=
  A.det⁻¹ • A.adjugate.mulVec b

/-- The solution vector of the circumcenter system
(`np.linalg.solve(lhs, rhs)`). -/
def vcSol (tri : Tri) (s : ℕ) : Fin (tri.ndim + 1) → ℚ :=
  solveLin (vcLhs tri s) (vcRhs tri s)

/-- The returned circumcenter: `y0 - 0.5 * solve(lhs, rhs)[1:]`. -/
def voronoi_center (tri : Tri) (s : ℕ) : Fin tri.ndim → ℚ :=
  fun j => ptAt tri s 0 j - 1/2 * vcSol tri s j.succ

/-- The circumcenter of a simplex as a coordinate list. -/
def voronoi_centerL (tri : Tri) (s : ℕ) : List ℚ :=
  List.ofFn (voronoi_center tri s)

/-- Batch form `voronoi_centers` (lines 129-133): the independent per-simplex application. -/
def voronoi_centersL (tri : Tri) : List (List ℚ) :=
  (List.range tri.vertices.length).map (voronoi_centerL tri)

/-- Squared Euclidean distance. -/
def distSq {n : ℕ} (a b : Fin n → ℚ) : ℚ := ∑ j, (a j - b j) ^ 2

/- ------------------------------------------------------------------ -/
/- `voronoi_volume` (lines 141-188): Voronoi cell volume.              -/
/- ------------------------------------------------------------------ -/

/-- Exact-rational model of `np.linalg.det`: Laplace expansion along the
first row, driven by a structural size argument so that it evaluates by
kernel reduction. -/
def detLF : ℕ → List (List ℚ) → ℚ
  | _, [] => 1
  | 0, _ :: _ => 1
  | n + 1, row :: rest =>
    (List.range row.length).foldr
      (fun j acc =>
        (-1) ^ j * row.getD j 0 * detLF n (rest.map (fun r => r.eraseIdx j)) + acc) 0

/-- Determinant of a square matrix given as its list of rows. -/
def detRows (rows : List (List ℚ)) : ℚ := detLF rows.length rows

/-- The `ndim_factorial` accumulator (lines 153-155). -/
def ndimFact (ndim : ℕ) : ℕ := (List.range ndim).foldl (fun a j => a * (j + 1)) 1

/-- The incident-simplex list of a vertex
(`ind, iptr = tri.vertex_simplex; iptr[ind[ivertex]:ind[ivertex+1]]`). -/
def incidentOf (tri : Tri) (iv : ℕ) : List ℕ :=
  (tri.iptr.drop (tri.ind.getD iv 0)).take (tri.ind.getD (iv + 1) 0 - tri.ind.getD iv 0)

/-- The `is_neighbor` test of the facet-enumeration loop (lines
166-174), exactly as written in the source: for each later position
`j` of the combination it scans `tri.neighbors[ix[j], k] == ix[0]` —
the *positions* `ix[j]`, `ix[0]` inside the incident-simplex list, not
the simplex ids stored at those positions.  In the runs considered,
`ix[j]` stays below the number of simplices, so `getD` with an
impossible default (`-2` is never a position) matches numpy row
indexing. -/
def isNbrChk (tri : Tri) (ix : List ℕ) : Bool :=
  (List.range (tri.ndim - 1)).all fun j0 =>
    (List.range (tri.ndim + 1)).any fun k =>
      (tri.neighbors.getD (ix.getD (j0 + 1) 0) []).getD k (-2) == ((ix.getD 0 0 : ℕ) : ℤ)

/-- One pass of the `go to next simplex candidate` loop (lines 181-186):
`for j in xrange(tri.ndim-1, -1, -1): ix[j] += 1; if ix[j] >=
len(simplices): ix[j] = ix[j-1] + 1 else: break`.  The countdown
argument is `j + 1`; note Python's `ix[-1]` (when `j = 0`) denotes the
last element. -/
def incIxAux (m ndim : ℕ) : ℕ → List ℕ → List ℕ
  | 0, ix => ix
  | c + 1, ix =>
    let j := c
    let v := ix.getD j 0 + 1
    let ix1 := ix.set j v
    if v ≥ m then
      let prev := if j = 0 then ix1.getD (ndim - 1) 0 else ix1.getD (j - 1) 0
      let ix2 := ix1.set j (prev + 1)
      if j = 0 then ix2 else incIxAux m ndim c ix2
    else ix1

/-- Advance the combination candidate `ix`. -/
def incIx (m ndim : ℕ) (ix : List ℕ) : List ℕ := incIxAux m ndim ndim ix

/-- The `while ix[0] <= len(simplices) - tri.ndim:` loop (lines
162-186), with explicit fuel: test the candidate with `is_neighbor`,
accumulate `abs(det(centers[ix,:] - x0)) / ndim_factorial` when it is
accepted, and advance the candidate. -/
def volLoopF (tri : Tri) (centers : List (List ℚ)) (x0 : List ℚ) (m : ℕ) :
    ℕ → List ℕ → ℚ → Except QErr ℚ
  | 0, _, _ => .error .fuelExhausted
  | fuel + 1, ix, tot =>
    if ((ix.getD 0 0 : ℕ) : ℤ) ≤ (m : ℤ) - (tri.ndim : ℤ) then
      volLoopF tri centers x0 m fuel (incIx m tri.ndim ix)
        (if isNbrChk tri ix then
          tot + |detRows (ix.map (fun i =>
            List.zipWith (fun a b => a - b) (centers.getD i []) x0))|
              / (ndimFact tri.ndim : ℚ)
        else tot)
    else .ok tot

/-- Top-level `voronoi_volume(tri, ivertex)` (lines 141-188): gather the incident
simplices, take their circumcenters (`voronoi_centers(tri)[simplices]`),
and run the combination loop starting from `ix = range(ndim)` with
`total_volume = 0`. -/
def voronoi_volume (fuel : ℕ) (tri : Tri) (ivertex : ℕ) : Except QErr ℚ :=
  let simplices := incidentOf tri ivertex
  let centers := simplices.map (fun s => (voronoi_centersL tri).getD s [])
  let x0 := tri.points.getD ivertex []
  volLoopF tri centers x0 simplices.length fuel (List.range tri.ndim) 0

/-- Modelled from the spec: the acceptance test of §4.3 applied to a
combination of *actual incident simplex ids* — "a combination is
accepted ... only if each of its later members is adjacent (appears in
the neighbor list) of the first member of the combination". -/
def acceptSpecB (tri : Tri) (combo : List ℕ) : Bool :=
  combo.tail.all fun d =>
    (tri.neighbors.getD d []).contains ((combo.headD 0 : ℕ) : ℤ)

/-- Modelled from the spec: the cell volume described in §4.3 — the sum
over the `ndim`-sized combinations of the incident-simplex list that
pass `acceptSpecB`, of `|det(circumcenters - x0)| / ndim!`. -/
def claimVolumeSum (tri : Tri) (iv : ℕ) : ℚ :=
  let simplices := incidentOf tri iv
  let x0 := tri.points.getD iv []
  ((List.sublistsLen tri.ndim simplices).filter (fun c => acceptSpecB tri c)).foldl
    (fun t c =>
      t + |detRows (c.map (fun s =>
        List.zipWith (fun a b => a - b) ((voronoi_centersL tri).getD s []) x0))|
          / (ndimFact tri.ndim : ℚ)) 0

/- ------------------------------------------------------------------ -/
/- State-passing wrappers recording the frame effect on the            -/
/- triangulation.  The only in-place array update in the source is     -/
/- `y -= y0` inside `voronoi_center`, and its target `y =              -/
/- tri.points[tri.vertices[isimplex]]` is a fresh copy (numpy advanced  -/
/- indexing), which the embedding reflects by building the translated   -/
/- rows `vcY` as new values; no field of the triangulation is ever      -/
/- rebound, so each wrapper returns the triangulation it received.      -/
/- ------------------------------------------------------------------ -/

def addpoint_st (fuel : ℕ) (tri : Tri) (start : ℤ) (dist : ℤ → ℚ) :
    Except QErr (List ℤ × List (ℤ × ℕ)) × Tri :=
  (addpoint fuel tri start dist, tri)

def voronoi_center_st (tri : Tri) (s : ℕ) : List ℚ × Tri :=
  (voronoi_centerL tri s, tri)

def voronoi_centers_st (tri : Tri) : List (List ℚ) × Tri :=
  (voronoi_centersL tri, tri)

def voronoi_volume_st (fuel : ℕ) (tri : Tri) (iv : ℕ) : Except QErr ℚ × Tri :=
  (voronoi_volume fuel tri iv, tri)

/- ------------------------------------------------------------------ -/
/- Termination of the flood fill.                                      -/
/- ------------------------------------------------------------------ -/

/-- Ids currently on the work queue. -/
def qIds (q : List (ℤ × Option (ℤ × ℕ))) : Finset ℤ := (q.map Prod.fst).toFinset

/-- Every id that can ever be enqueued by an expansion step: the entries
of the neighbor table. -/
def nbrAll (tri : Tri) : Finset ℤ := tri.neighbors.flatten.toFinset

/-- First termination measure: ids not yet seen among the neighbor table
and the queue. -/
def meas1 (tri : Tri) (q : List (ℤ × Option (ℤ × ℕ))) (seen : Finset ℤ) : ℕ :=
  ((nbrAll tri ∪ qIds q) \ seen).card

/-- Second termination measure: length of the maximal prefix of the
queue consisting of already-seen ids. -/
def seenPref (seen : Finset ℤ) : List (ℤ × Option (ℤ × ℕ)) → ℕ
  | [] => 0
  | it :: rest => if it.1 ∈ seen then seenPref seen rest + 1 else 0


/- ------------------------------------------------------------------ -/
/- Proofs.  (`Rat` arithmetic is unsealed so that closed rational      -/
/- computations evaluate by kernel reduction.)                         -/
/- ------------------------------------------------------------------ -/

unseal Rat.add Rat.sub Rat.mul Rat.inv

lemma solveLin_mulVec {k : ℕ} (A : Matrix (Fin k) (Fin k) ℚ) (b : Fin k → ℚ)
    (h : A.det ≠ 0) : A.mulVec (solveLin A b) = b := by
  unfold solveLin
  rw [Matrix.mulVec_smul, Matrix.mulVec_mulVec, Matrix.mul_adjugate,
    Matrix.smul_mulVec_assoc, Matrix.one_mulVec, smul_smul, inv_mul_cancel₀ h, one_smul]

lemma solveLin_unique {k : ℕ} (A : Matrix (Fin k) (Fin k) ℚ) (b v : Fin k → ℚ)
    (h : A.det ≠ 0) (hv : A.mulVec v = b) : solveLin A b = v := by
  rw [← hv]; unfold solveLin
  rw [Matrix.mulVec_mulVec, Matrix.adjugate_mul, Matrix.smul_mulVec_assoc,
    Matrix.one_mulVec, smul_smul, inv_mul_cancel₀ h, one_smul]

lemma vcLhs_zero (tri : Tri) (s : ℕ) (i : Fin (tri.ndim + 1)) :
    vcLhs tri s i 0 = 1 := by
  simp [vcLhs]

lemma vcLhs_succ (tri : Tri) (s : ℕ) (i : Fin (tri.ndim + 1)) (j : Fin tri.ndim) :
    vcLhs tri s i j.succ = vcY tri s i j := by
  simp only [vcLhs, Matrix.of_apply]
  rw [dif_neg (by simp [Fin.val_succ])]
  congr 1

lemma vc_row_eq (tri : Tri) (s : ℕ) (h : (vcLhs tri s).det ≠ 0) (i : Fin (tri.ndim + 1)) :
    vcSol tri s 0 + ∑ j : Fin tri.ndim, vcY tri s i j * vcSol tri s j.succ
      = -(∑ j : Fin tri.ndim, vcY tri s i j ^ 2) := by
  have hrow := congrFun (solveLin_mulVec (vcLhs tri s) (vcRhs tri s) h) i
  rw [Matrix.mulVec] at hrow
  simp only [Matrix.dotProduct] at hrow
  rw [Fin.sum_univ_succ] at hrow
  rw [vcLhs_zero] at hrow
  simp only [vcLhs_succ] at hrow
  rw [one_mul] at hrow
  exact hrow.trans rfl

lemma distSq_center (tri : Tri) (s : ℕ) (h : (vcLhs tri s).det ≠ 0) (i : Fin (tri.ndim + 1)) :
    distSq (voronoi_center tri s) (ptAt tri s i)
      = (∑ j : Fin tri.ndim, vcSol tri s j.succ ^ 2) / 4 - vcSol tri s 0 := by
  have hrow := vc_row_eq tri s h i
  unfold distSq voronoi_center
  have hterm : ∀ j : Fin tri.ndim,
      (ptAt tri s 0 j - 1/2 * vcSol tri s j.succ - ptAt tri s i j) ^ 2
        = vcY tri s i j ^ 2 + vcY tri s i j * vcSol tri s j.succ
            + vcSol tri s j.succ ^ 2 / 4 := by
    intro j; unfold vcY; ring
  rw [Finset.sum_congr rfl (fun j _ => hterm j), Finset.sum_add_distrib,
    Finset.sum_add_distrib, ← Finset.sum_div]
  have hmix : ∑ j : Fin tri.ndim, vcY tri s i j * vcSol tri s j.succ
      = -(∑ j : Fin tri.ndim, vcY tri s i j ^ 2) - vcSol tri s 0 := by
    linarith [hrow]
  rw [hmix]
  ring


lemma newItemsAux_mem (facet : ℤ) (seen : Finset ℤ) :
    ∀ (i : ℕ) (l : List ℤ) (it : ℤ × Option (ℤ × ℕ)),
      it ∈ newItemsAux facet seen i l → it.1 ∈ l ∧ it.1 ∉ seen := by
  intro i l
  induction l generalizing i with
  | nil => intro it h; simp [newItemsAux] at h
  | cons nb rest ih =>
    intro it h
    simp only [newItemsAux] at h
    by_cases hnb : nb ∈ seen
    · rw [if_pos hnb] at h
      obtain ⟨h1, h2⟩ := ih (i + 1) it h
      exact ⟨List.mem_cons_of_mem _ h1, h2⟩
    · rw [if_neg hnb] at h
      rcases List.mem_cons.mp h with h | h
      · rw [h]
        exact ⟨List.mem_cons_self _ _, hnb⟩
      · obtain ⟨h1, h2⟩ := ih (i + 1) it h
        exact ⟨List.mem_cons_of_mem _ h1, h2⟩

lemma getD_row_sub (tri : Tri) (i : ℕ) {x : ℤ}
    (hx : x ∈ tri.neighbors.getD i []) : x ∈ nbrAll tri := by
  unfold nbrAll
  rw [List.mem_toFinset, List.mem_flatten]
  rcases Nat.lt_or_ge i tri.neighbors.length with hlt | hge
  · rw [List.getD_eq_getElem tri.neighbors [] hlt] at hx
    exact ⟨tri.neighbors[i], List.getElem_mem hlt, hx⟩
  · rw [List.getD_eq_default _ _ hge] at hx
    exact absurd hx (List.not_mem_nil x)

lemma newItems_mem (tri : Tri) (facet : ℤ) (seen : Finset ℤ)
    (it : ℤ × Option (ℤ × ℕ)) (h : it ∈ newItems tri facet seen) :
    it.1 ∈ nbrAll tri ∧ it.1 ∉ seen := by
  obtain ⟨h1, h2⟩ := newItemsAux_mem facet seen 0 _ it h
  exact ⟨getD_row_sub tri _ h1, h2⟩

lemma qIds_append (xs ys : List (ℤ × Option (ℤ × ℕ))) :
    qIds (xs ++ ys) = qIds xs ∪ qIds ys := by
  simp [qIds, List.toFinset_append]

lemma mem_qIds {q : List (ℤ × Option (ℤ × ℕ))} {x : ℤ} :
    x ∈ qIds q ↔ ∃ it ∈ q, it.1 = x := by
  simp [qIds]

lemma meas1_le (tri : Tri) (q' q : List (ℤ × Option (ℤ × ℕ))) (seen : Finset ℤ)
    (hsub : qIds q' ⊆ qIds q ∪ nbrAll tri) :
    meas1 tri q' seen ≤ meas1 tri q seen := by
  apply Finset.card_le_card
  intro x hx
  rw [Finset.mem_sdiff] at hx ⊢
  refine ⟨?_, hx.2⟩
  rcases Finset.mem_union.mp hx.1 with h | h
  · exact Finset.mem_union_left _ h
  · rcases Finset.mem_union.mp (hsub h) with h' | h'
    · exact Finset.mem_union_right _ h'
    · exact Finset.mem_union_left _ h'

lemma meas1_lt (tri : Tri) (facet : ℤ) (r : Option (ℤ × ℕ))
    (rest q' : List (ℤ × Option (ℤ × ℕ))) (seen : Finset ℤ)
    (hsub : qIds q' ⊆ qIds rest ∪ nbrAll tri) (hfs : facet ∉ seen) :
    meas1 tri q' (insert facet seen) < meas1 tri ((facet, r) :: rest) seen := by
  have hmem : facet ∈ (nbrAll tri ∪ qIds ((facet, r) :: rest)) \ seen := by
    rw [Finset.mem_sdiff]
    refine ⟨Finset.mem_union_right _ ?_, hfs⟩
    exact mem_qIds.mpr ⟨(facet, r), List.mem_cons_self _ _, rfl⟩
  have hrest : qIds rest ⊆ qIds ((facet, r) :: rest) := by
    intro x hx
    rcases mem_qIds.mp hx with ⟨it, hit, hx'⟩
    exact mem_qIds.mpr ⟨it, List.mem_cons_of_mem _ hit, hx'⟩
  have hss : (nbrAll tri ∪ qIds q') \ insert facet seen
      ⊆ ((nbrAll tri ∪ qIds ((facet, r) :: rest)) \ seen).erase facet := by
    intro x hx
    rw [Finset.mem_sdiff] at hx
    obtain ⟨hx1, hx2⟩ := hx
    rw [Finset.mem_insert] at hx2
    push_neg at hx2
    rw [Finset.mem_erase, Finset.mem_sdiff]
    refine ⟨hx2.1, ?_, hx2.2⟩
    rcases Finset.mem_union.mp hx1 with h | h
    · exact Finset.mem_union_left _ h
    · rcases Finset.mem_union.mp (hsub h) with h' | h'
      · exact Finset.mem_union_right _ (hrest h')
      · exact Finset.mem_union_left _ h'
  calc meas1 tri q' (insert facet seen)
      ≤ (((nbrAll tri ∪ qIds ((facet, r) :: rest)) \ seen).erase facet).card :=
        Finset.card_le_card hss
    _ < _ := Finset.card_erase_lt_of_mem hmem

lemma seenPref_append_unseen (seen : Finset ℤ) (xs ys : List (ℤ × Option (ℤ × ℕ)))
    (h : ∀ it ∈ ys, it.1 ∉ seen) :
    seenPref seen (xs ++ ys) = seenPref seen xs := by
  induction xs with
  | nil =>
    cases ys with
    | nil => rfl
    | cons y ys' =>
      simp only [List.nil_append, seenPref]
      rw [if_neg (h y (List.mem_cons_self _ _))]
  | cons x xs' ih =>
    show (if x.1 ∈ seen then seenPref seen (xs' ++ ys) + 1 else 0) = _
    rw [ih]
    rfl

theorem addpointTermAux (tri : Tri) (dist : ℤ → ℚ) :
    ∀ a b (q : List (ℤ × Option (ℤ × ℕ))) (seen : Finset ℤ) (nn : List ℤ)
      (hr : List (ℤ × ℕ)), meas1 tri q seen = a → seenPref seen q = b →
      ∃ n, (addpointLoopF tri dist n q seen nn hr).isSome = true := by
  intro a
  induction a using Nat.strong_induction_on with
  | _ a iha =>
    intro b
    induction b using Nat.strong_induction_on with
    | _ b ihb =>
      intro q seen nn hr hma hmb
      cases q with
      | nil => exact ⟨1, rfl⟩
      | cons hd rest =>
        obtain ⟨facet, ridge⟩ := hd
        have hq : ∀ (q' : List (ℤ × Option (ℤ × ℕ))) (nn' : List ℤ) (hr' : List (ℤ × ℕ)),
            qIds q' ⊆ qIds rest ∪ nbrAll tri →
            seenPref seen q' ≤ seenPref seen rest →
            ∃ n, (addpointLoopF tri dist n q' (insert facet seen) nn' hr').isSome = true := by
          intro q' nn' hr' hsub hpref
          have hsub2 : qIds q' ⊆ qIds ((facet, ridge) :: rest) ∪ nbrAll tri := by
            intro x hx
            rcases Finset.mem_union.mp (hsub hx) with h | h
            · rcases mem_qIds.mp h with ⟨it, hit, hx'⟩
              exact Finset.mem_union_left _
                (mem_qIds.mpr ⟨it, List.mem_cons_of_mem _ hit, hx'⟩)
            · exact Finset.mem_union_right _ h
          by_cases hseen : facet ∈ seen
          · have hins : insert facet seen = seen := Finset.insert_eq_self.mpr hseen
            rw [hins]
            have hle : meas1 tri q' seen ≤ a := hma ▸ meas1_le tri q' _ seen hsub2
            rcases lt_or_eq_of_le hle with hlt | heq
            · exact iha _ hlt (seenPref seen q') q' seen nn' hr' rfl rfl
            · have hblt : seenPref seen q' < b := by
                rw [← hmb]
                simp only [seenPref, if_pos hseen]
                omega
              exact ihb _ hblt q' seen nn' hr' heq rfl
          · have hlt : meas1 tri q' (insert facet seen) < a :=
              hma ▸ meas1_lt tri facet ridge rest q' seen hsub hseen
            exact iha _ hlt (seenPref (insert facet seen) q') q' (insert facet seen)
              nn' hr' rfl rfl
        have hrefl : qIds rest ⊆ qIds rest ∪ nbrAll tri := Finset.subset_union_left
        by_cases hfac : facet = -1
        · obtain ⟨n, hn⟩ := hq rest nn (hr ++ ridge.toList) hrefl (le_refl _)
          refine ⟨n + 1, ?_⟩
          simp only [addpointLoopF]
          rw [if_pos hfac]
          exact hn
        · by_cases hd : 0 ≤ dist facet
          · have hnew : ∀ it ∈ newItems tri facet (insert facet seen), it.1 ∉ seen := by
              intro it hit
              have h2 := (newItems_mem tri facet (insert facet seen) it hit).2
              exact fun hmem => h2 (Finset.mem_insert_of_mem hmem)
            have hsub : qIds (rest ++ newItems tri facet (insert facet seen))
                ⊆ qIds rest ∪ nbrAll tri := by
              rw [qIds_append]
              intro x hx
              rcases Finset.mem_union.mp hx with h | h
              · exact Finset.mem_union_left _ h
              · rcases mem_qIds.mp h with ⟨it, hit, hx'⟩
                exact Finset.mem_union_right _
                  (hx' ▸ (newItems_mem tri facet (insert facet seen) it hit).1)
            have hpref : seenPref seen (rest ++ newItems tri facet (insert facet seen))
                ≤ seenPref seen rest := by
              rw [seenPref_append_unseen seen rest _ hnew]
            obtain ⟨n, hn⟩ :=
              hq (rest ++ newItems tri facet (insert facet seen)) (nn ++ [facet]) hr hsub hpref
            refine ⟨n + 1, ?_⟩
            simp only [addpointLoopF]
            rw [if_neg hfac, if_pos hd]
            exact hn
          · obtain ⟨n, hn⟩ := hq rest nn (hr ++ ridge.toList) hrefl (le_refl _)
            refine ⟨n + 1, ?_⟩
            simp only [addpointLoopF]
            rw [if_neg hfac, if_neg hd]
            exact hn

lemma addpoint_visible_sound (tri : Tri) (dist : ℤ → ℚ) :
    ∀ (n : ℕ) (q : List (ℤ × Option (ℤ × ℕ))) (seen : Finset ℤ) (nn : List ℤ)
      (hr : List (ℤ × ℕ)) (out : List ℤ × List (ℤ × ℕ)),
      addpointLoopF tri dist n q seen nn hr = some out →
      ∀ f ∈ out.1, f ∈ nn ∨ (f ≠ -1 ∧ 0 ≤ dist f) := by
  intro n
  induction n with
  | zero =>
    intro q seen nn hr out h f hf
    cases q with
    | nil =>
      simp only [addpointLoopF, Option.some.injEq] at h
      subst h
      exact Or.inl hf
    | cons hd rest =>
      obtain ⟨facet, ridge⟩ := hd
      exact absurd h (by simp [addpointLoopF])
  | succ n ih =>
    intro q seen nn hr out h f hf
    cases q with
    | nil =>
      simp only [addpointLoopF, Option.some.injEq] at h
      subst h
      exact Or.inl hf
    | cons hd rest =>
      obtain ⟨facet, ridge⟩ := hd
      simp only [addpointLoopF] at h
      by_cases hfac : facet = -1
      · rw [if_pos hfac] at h
        exact ih _ _ _ _ _ h f hf
      · rw [if_neg hfac] at h
        by_cases hdi : 0 ≤ dist facet
        · rw [if_pos hdi] at h
          rcases ih _ _ _ _ _ h f hf with hmem | hcond
          · rcases List.mem_append.mp hmem with h' | h'
            · exact Or.inl h'
            · rcases List.mem_singleton.mp h' with rfl
              exact Or.inr ⟨hfac, hdi⟩
          · exact Or.inr hcond
        · rw [if_neg hdi] at h
          exact ih _ _ _ _ _ h f hf

lemma strip_sol0 : vcSol stripTri 0 = ![0, -2, -5/6] := by
  apply solveLin_unique
  · rw [Matrix.det_fin_three]; decide
  · decide

lemma strip_sol1 : vcSol stripTri 1 = ![0, -2, 0] := by
  apply solveLin_unique
  · rw [Matrix.det_fin_three]; decide
  · decide

lemma strip_sol2 : vcSol stripTri 2 = ![0, 1/10, -21/10] := by
  apply solveLin_unique
  · rw [Matrix.det_fin_three]; decide
  · decide

lemma strip_sol3 : vcSol stripTri 3 = ![0, 0, -2] := by
  apply solveLin_unique
  · rw [Matrix.det_fin_three]; decide
  · decide

lemma strip_c0 : voronoi_centerL stripTri 0 = [2, 17/12] := by
  simp only [voronoi_centerL, voronoi_center, strip_sol0]
  decide

lemma strip_c1 : voronoi_centerL stripTri 1 = [1, 0] := by
  simp only [voronoi_centerL, voronoi_center, strip_sol1]
  decide

lemma strip_c2 : voronoi_centerL stripTri 2 = [59/20, 41/20] := by
  simp only [voronoi_centerL, voronoi_center, strip_sol2]
  decide

lemma strip_c3 : voronoi_centerL stripTri 3 = [2, 1] := by
  simp only [voronoi_centerL, voronoi_center, strip_sol3]
  decide

/-- The circumcenters of the strip triangulation, exactly. -/
lemma strip_centersL :
    voronoi_centersL stripTri = [[2, 17/12], [1, 0], [59/20, 41/20], [2, 1]] := by
  show (List.range 4).map (voronoi_centerL stripTri) = _
  rw [(by decide : List.range 4 = [0, 1, 2, 3])]
  simp only [List.map_cons, List.map_nil, strip_c0, strip_c1, strip_c2, strip_c3]

/- ------------------------------------------------------------------ -/
/- Claims.                                                             -/
/- ------------------------------------------------------------------ -/

/-- C1: on the cocircular square with the query point at its center both
simplices are visible (`new_neighbors = [0, 1]`), simplex 1's neighbor
row contains the hull sentinel twice, yet the returned `hull_ridges` is
exactly `[(0,0), (0,2)]`: every recorded boundary ridge is tagged with
simplex 0, and the two hull ridges of visible simplex 1 are missing —
they are dropped because the sentinel `-1` is already a key of `seen`
when simplex 1 is expanded.  This contradicts the claim that
`boundary_ridges` contains one entry for every ridge of the visible
star's boundary. -/
theorem addpoint_square_missing_boundary_ridges :
    addpoint 10 sqTri 0 sqDist = .ok ([0, 1], [(0, 0), (0, 2)])
      ∧ sqTri.neighbors.getD 1 [] = [-1, -1, 0]
      ∧ ([((0 : ℤ), (0 : ℕ)), (0, 2)].all fun p => p.1 == 0) = true :=
  ⟨by decide, by decide, by decide⟩

/-- C2: for vertex 4 of the strip triangulation the incident-simplex
list is `[0, 2]` (simplex ids 0 and 2 at positions 0 and 1).  The
source's acceptance test `is_neighbor` evaluates
`tri.neighbors[ix[j], k] == ix[0]` on the *positions* `[0, 1]` and
rejects the combination (simplex 1's neighbor row is consulted instead
of simplex 2's), while the test described by the claim — the simplex id
of the later member has the id of the first member in its neighbor
list — accepts it. -/
theorem voronoi_adjacency_positions_not_ids :
    incidentOf stripTri 4 = [0, 2]
      ∧ isNbrChk stripTri [0, 1] = false
      ∧ acceptSpecB stripTri [0, 2] = true :=
  ⟨by decide, by decide, by decide⟩

/-- C3: one step of the flood fill on a non-sentinel simplex with
sidedness `≥ 0` (inclusive) appends the simplex to `new_neighbors` and
enqueues exactly its not-yet-seen neighbors; with strictly negative
sidedness it only records the originating ridge and does not expand.
Every simplex ever added to `new_neighbors` was processed with
sidedness `≥ 0`.  In particular, on the cocircular square whose center
has sidedness exactly `0` with respect to both simplices, both appear in
the returned visible list. -/
theorem addpoint_inclusive_flood :
    (∀ (tri : Tri) (dist : ℤ → ℚ) (n : ℕ) (f : ℤ) (r : Option (ℤ × ℕ))
        (rest : List (ℤ × Option (ℤ × ℕ))) (seen : Finset ℤ) (nn : List ℤ)
        (hr : List (ℤ × ℕ)), f ≠ -1 → 0 ≤ dist f →
        addpointLoopF tri dist (n + 1) ((f, r) :: rest) seen nn hr
          = addpointLoopF tri dist n (rest ++ newItems tri f (insert f seen))
              (insert f seen) (nn ++ [f]) hr)
    ∧ (∀ (tri : Tri) (dist : ℤ → ℚ) (n : ℕ) (f : ℤ) (r : Option (ℤ × ℕ))
        (rest : List (ℤ × Option (ℤ × ℕ))) (seen : Finset ℤ) (nn : List ℤ)
        (hr : List (ℤ × ℕ)), f ≠ -1 → dist f < 0 →
        addpointLoopF tri dist (n + 1) ((f, r) :: rest) seen nn hr
          = addpointLoopF tri dist n rest (insert f seen) nn (hr ++ r.toList))
    ∧ (∀ (tri : Tri) (dist : ℤ → ℚ) (n : ℕ) (q : List (ℤ × Option (ℤ × ℕ)))
        (seen : Finset ℤ) (nn : List ℤ) (hr : List (ℤ × ℕ))
        (out : List ℤ × List (ℤ × ℕ)),
        addpointLoopF tri dist n q seen nn hr = some out →
        ∀ f ∈ out.1, f ∈ nn ∨ (f ≠ -1 ∧ 0 ≤ dist f))
    ∧ (sqDist 0 = 0 ∧ sqDist 1 = 0
        ∧ ∃ nnout hrout, addpoint 10 sqTri 0 sqDist = .ok (nnout, hrout)
            ∧ (0 : ℤ) ∈ nnout ∧ (1 : ℤ) ∈ nnout) := by
  refine ⟨?_, ?_, ?_, ?_⟩
  · intro tri dist n f r rest seen nn hr h1 h2
    simp only [addpointLoopF]
    rw [if_neg h1, if_pos h2]
  · intro tri dist n f r rest seen nn hr h1 h2
    simp only [addpointLoopF]
    rw [if_neg h1, if_neg (not_le.mpr h2)]
  · exact fun tri dist n q seen nn hr out h f hf =>
      addpoint_visible_sound tri dist n q seen nn hr out h f hf
  · exact ⟨rfl, rfl, [0, 1], [(0, 0), (0, 2)], by decide, by decide, by decide⟩

theorem addpoint_inclusive_flood_witness :
    (0 : ℤ) ≠ -1 ∧ (0 : ℚ) ≤ sqDist 0
      ∧ addpointLoopF sqTri sqDist 1 [((0 : ℤ), none)] {0} [] []
          = addpointLoopF sqTri sqDist 0 ([] ++ newItems sqTri 0 (insert 0 {0}))
              (insert 0 {0}) ([] ++ [0]) [] :=
  ⟨by decide, by decide,
    addpoint_inclusive_flood.1 sqTri sqDist 0 0 none [] {0} [] [] (by decide) (by decide)⟩

/-- C4 (counterexample): in the fan triangulation with all three
simplices visible, the enqueue log of the run is
`[0, 1, 2, -1, 2, -1, -1]`: simplex 2 is placed on the work queue twice
(it is enqueued by simplex 1 while it is already queued but not yet
seen) and the hull sentinel three times, and consequently simplex 2 is
also processed twice (`new_neighbors = [0, 1, 2, 2]`).  This refutes
"each simplex id (and the hull-boundary sentinel) enters the work queue
at most once". -/
theorem addpoint_fan_enqueued_twice :
    addpointLog 20 fanTri 0 fanDist = some [0, 1, 2, -1, 2, -1, -1]
      ∧ ([(0 : ℤ), 1, 2, -1, 2, -1, -1].count 2 = 2
          ∧ [(0 : ℤ), 1, 2, -1, 2, -1, -1].count (-1) = 3)
      ∧ addpoint 20 fanTri 0 fanDist = .ok ([0, 1, 2, 2], [(0, 2), (1, 2), (2, 2)]) :=
  ⟨by decide, ⟨by decide, by decide⟩, by decide⟩

/-- C4 (amended): the flood-fill loop terminates from every state — for
every triangulation, sidedness oracle, queue, seen set and accumulators
there is enough fuel for `addpointLoopF` to run to completion (the
measure is lexicographic: unseen ids among the neighbor table and the
queue, then the length of the already-seen prefix of the queue). -/
theorem addpoint_loop_terminates :
    ∀ (tri : Tri) (dist : ℤ → ℚ) (q : List (ℤ × Option (ℤ × ℕ)))
      (seen : Finset ℤ) (nn : List ℤ) (hr : List (ℤ × ℕ)),
      ∃ n, (addpointLoopF tri dist n q seen nn hr).isSome = true :=
  fun tri dist q seen nn hr =>
    addpointTermAux tri dist (meas1 tri q seen) (seenPref seen q) q seen nn hr rfl rfl

/-- C5: for vertex 4 of the strip triangulation the source returns total
volume `0` — its position-based `is_neighbor` test rejects the only
`ndim`-sized combination — whereas the sum described by the claim
(strictly increasing combinations accepted by adjacency of the actual
incident simplices, `|det(centers - x0)|/ndim!`) is `247/480`. -/
theorem voronoi_volume_positions_value :
    voronoi_volume 30 stripTri 4 = .ok 0 ∧ claimVolumeSum stripTri 4 = 247/480 := by
  constructor
  · decide
  · simp only [claimVolumeSum]
    rw [strip_centersL]
    decide

/-- C6: whenever the circumcenter system is nonsingular, the point
returned by `voronoi_center` — which is by construction
`y0 - 0.5 * solve(lhs, rhs)[1:]` — is equidistant from all `ndim+1`
vertices of the simplex. -/
theorem voronoi_center_equidistant :
    ∀ (tri : Tri) (s : ℕ), (vcLhs tri s).det ≠ 0 →
      (∀ i₁ i₂ : Fin (tri.ndim + 1),
        distSq (voronoi_center tri s) (ptAt tri s i₁)
          = distSq (voronoi_center tri s) (ptAt tri s i₂))
      ∧ voronoi_center tri s
          = fun j => ptAt tri s 0 j - 1/2 * vcSol tri s j.succ := by
  intro tri s h
  refine ⟨fun i₁ i₂ => ?_, rfl⟩
  rw [distSq_center tri s h i₁, distSq_center tri s h i₂]

theorem voronoi_center_equidistant_witness :
    (vcLhs segTri 0).det ≠ 0
      ∧ distSq (voronoi_center segTri 0) (ptAt segTri 0 0)
          = distSq (voronoi_center segTri 0) (ptAt segTri 0 1) := by
  have hdet : (vcLhs segTri 0).det ≠ 0 := by rw [Matrix.det_fin_two]; decide
  exact ⟨hdet, (voronoi_center_equidistant segTri 0 hdet).1 0 1⟩

/-- C7 (counterexample): vertex 3 of the strip triangulation lies on the
hull, so its Voronoi cell is unbounded, yet `voronoi_volume` returns the
numeric value `5/24` — no unbounded-cell check exists and no error is
raised. -/
theorem voronoi_volume_unbounded_returns_number :
    voronoi_volume 30 stripTri 3 = .ok (5/24) := by
  simp only [voronoi_volume]
  rw [strip_centersL]
  decide

/-- C7 (amended): `voronoi_volume` performs no boundedness check; for a
hull vertex it silently returns a numeric total — here the hull vertex 5
even yields the silent fallback value `0`. -/
theorem voronoi_volume_unbounded_silent_zero :
    voronoi_volume 30 stripTri 5 = .ok 0 := by decide

/-- C8: when point location reports "outside" (`find_simplex = -1`),
`addpoint` fails with the outside-hull error before doing any work, for
every triangulation, fuel and sidedness oracle — no partial result is
produced. -/
theorem addpoint_outside_hull :
    ∀ (fuel : ℕ) (tri : Tri) (dist : ℤ → ℚ),
      addpoint fuel tri (-1) dist = .error .outsideHull := by
  intro fuel tri dist
  simp [addpoint]

/-- C9: none of the core operations rebinds any field of the
triangulation: each state-passing wrapper returns the triangulation it
received, for all inputs. -/
theorem core_ops_read_only :
    ∀ (fuel : ℕ) (tri : Tri) (start : ℤ) (dist : ℤ → ℚ) (s iv : ℕ),
      (addpoint_st fuel tri start dist).2 = tri
        ∧ (voronoi_center_st tri s).2 = tri
        ∧ (voronoi_centers_st tri).2 = tri
        ∧ (voronoi_volume_st fuel tri iv).2 = tri :=
  fun _ _ _ _ _ _ => ⟨rfl, rfl, rfl, rfl⟩

/-- C10: whenever a vertex's incident-simplex list has fewer than `ndim`
entries (the empty list included), the very first loop condition
`ix[0] <= len(simplices) - ndim` fails, so the facet-enumeration loop is
never entered and `voronoi_volume` returns exactly `0` with no error. -/
theorem voronoi_volume_small_star :
    ∀ (tri : Tri) (iv fuel : ℕ), 1 ≤ tri.ndim →
      (incidentOf tri iv).length < tri.ndim →
      voronoi_volume (fuel + 1) tri iv = .ok 0 := by
  intro tri iv fuel h1 h2
  obtain ⟨n, hn⟩ : ∃ n, tri.ndim = n + 1 := ⟨tri.ndim - 1, by omega⟩
  simp only [voronoi_volume, volLoopF]
  rw [if_neg]
  have hhead : (List.range tri.ndim).getD 0 0 = 0 := by
    rw [hn, List.range_succ_eq_map]
    rfl
  rw [hhead]
  push_cast
  omega

theorem voronoi_volume_small_star_witness :
    1 ≤ stripTri.ndim ∧ (incidentOf stripTri 0).length < stripTri.ndim
      ∧ voronoi_volume 1 stripTri 0 = .ok 0 :=
  ⟨by decide, by decide, voronoi_volume_small_star stripTri 0 0 (by decide) (by decide)⟩
